import Mathlib

/-!
Verification development for the array-value engine of the uiua runtime
(files `src/algorithm/pervade.rs` and `src/algorithm/monadic.rs`).

The shallow embedding models `Array<T>` as a shape together with a flat
row-major data list.  Machine `usize` arithmetic is modelled by `Nat`
(with explicit bounds where overflow or saturation matters), `u128` casts
by explicit clamps, and `f64` element values by `ℚ` for the bit-packing
algorithms (where only integral values matter) and by `ℝ` for the scalar
kernels.  Fallible operations return `Except String`; a Rust panic
(arithmetic overflow, division by zero) is modelled as an `Except.error`
whose message starts with "panic:".
-/

/-- Embedding of `Array<T>`: a shape (outermost dimension first) and the
flat row-major data.  The representation invariant of the source,
`data.len() == shape.iter().product()`, is carried as an explicit
hypothesis `wf` where a claim needs it. -/
structure UArray (α : Type) where
  shape : List Nat
  data : List α
deriving Repr, DecidableEq

namespace UArray

/-- The invariant of the source representation: flat length equals the
product of the shape. -/
def wf (a : UArray α) : Prop := a.data.length = a.shape.prod

instance (a : UArray α) : Decidable a.wf := by unfold wf; infer_instance

/-- `Arrayish::rank`: `self.shape().len()`. -/
def rank (a : UArray α) : Nat := a.shape.length

/-- `Arrayish::flat_len`: `self.data().len()`. -/
def flat_len (a : UArray α) : Nat := a.data.length

/-- `Arrayish::row_len`: `self.shape().iter().skip(1).product()`. -/
def row_len (a : UArray α) : Nat := (a.shape.drop 1).prod

/-- Modelled from the spec (the array module is not among the sources):
`row_count = shape[0]` when rank >= 1, and 1 for a scalar. -/
def row_count (a : UArray α) : Nat := a.shape.headD 1

/-- Modelled from the spec: a row is the contiguous sub-slice
`data[i*row_len .. (i+1)*row_len]`. -/
def row_slice (a : UArray α) (i : Nat) : List α :=
  (a.data.drop (i * a.row_len)).take a.row_len

/-- Modelled from the spec: the rows of an array, `i` in `0..row_count`. -/
def rows_list (a : UArray α) : List (List α) :=
  (List.range a.row_count).map a.row_slice

end UArray

/-- Decidable equality of fallible results, so that concrete runs of the
embedded operations can be checked by `decide`. -/
instance {ε α : Type} [DecidableEq ε] [DecidableEq α] : DecidableEq (Except ε α) := fun x y =>
  match x, y with
  | .ok a, .ok b =>
    match decEq a b with
    | .isTrue h => .isTrue (h ▸ rfl)
    | .isFalse h => .isFalse fun hc => h (Except.ok.inj hc)
  | .error a, .error b =>
    match decEq a b with
    | .isTrue h => .isTrue (h ▸ rfl)
    | .isFalse h => .isFalse fun hc => h (Except.error.inj hc)
  | .ok _, .error _ => .isFalse fun hc => Except.noConfusion hc
  | .error _, .ok _ => .isFalse fun hc => Except.noConfusion hc

/-- `Arrayish::shape_prefixes_match` on raw shapes:
`self.shape().iter().zip(other.shape()).all(|(a, b)| a == b)`. -/
def prefixes_match (s t : List Nat) : Bool :=
  (s.zip t).all fun p => p.1 == p.2

/-- `Arrayish::shape_prefixes_match` between two arrays. -/
def UArray.shape_prefixes_match (a : UArray α) (b : UArray β) : Bool :=
  prefixes_match a.shape b.shape

/-- Lexicographic strict order on shapes, as `Ord` on Rust slices
compares them (element-wise, a proper prefix is less). -/
def shapeLexLt : List Nat → List Nat → Bool
  | [], [] => false
  | [], _ :: _ => true
  | _ :: _, [] => false
  | a :: s, b :: t => a < b || (a == b && shapeLexLt s t)

/-- `Ord::max` on Rust slices: `max(self, other) = if other < self then self
else other`, used by `bin_pervade` as `a.shape().max(b.shape())`. -/
def shapeMax (s t : List Nat) : List Nat := if shapeLexLt t s then s else t

/-- Element-wise maximum of two shapes, the shape the spec's
"pervasion shape law" names (the shorter shape contributes its
elements over the common prefix). -/
def elementwise_max : List Nat → List Nat → List Nat
  | [], t => t
  | s, [] => s
  | a :: s, b :: t => max a b :: elementwise_max s t

/-- Modelled from the spec (defined in the out-of-scope algorithm module):
`max_shape` computes the element-wise maximum shape.  `bin_pervade` only
calls it when the two ranks are equal. -/
def max_shape (s t : List Nat) : List Nat := elementwise_max s t

/-- Modelled from the spec (the array module is not among the sources):
`Array::fill_to_shape` grows the array to `target`, keeping the existing
data and padding with the fill value; the shape becomes `target`. -/
def fill_to_shape (a : UArray α) (target : List Nat) (fill : α) : UArray α :=
  ⟨target, a.data.take target.prod ++
    List.replicate (target.prod - a.data.length) fill⟩

/-- First repair pass of `bin_pervade` ("Fill in missing rows"): the operand
with fewer rows, if its element type has a fill value, is grown so its
leading dimension matches the other's row count. -/
def fill_rows_pass (a : UArray α) (b : UArray β) (fa : Option α) (fb : Option β) :
    UArray α × UArray β :=
  if a.row_count < b.row_count then
    match fa with
    | some fill => (fill_to_shape a (a.shape.set 0 b.row_count) fill, b)
    | none => (a, b)
  else if b.row_count < a.row_count then
    match fb with
    | some fill => (a, fill_to_shape b (b.shape.set 0 a.row_count) fill)
    | none => (a, b)
  else (a, b)

/-- Second repair pass of `bin_pervade` ("Fill in missing dimensions"):
the lower-rank operand gains a leading dimension of the other's row count;
at equal ranks both operands are grown to `max_shape` where needed. -/
def fill_dims_pass (a : UArray α) (b : UArray β) (fa : Option α) (fb : Option β) :
    UArray α × UArray β :=
  if a.rank < b.rank then
    match fa with
    | some fill => (fill_to_shape a (b.row_count :: a.shape) fill, b)
    | none => (a, b)
  else if b.rank < a.rank then
    match fb with
    | some fill => (a, fill_to_shape b (a.row_count :: b.shape) fill)
    | none => (a, b)
  else
    let target := max_shape a.shape b.shape
    let a' := if a.shape ≠ target then
        (match fa with
         | some fill => fill_to_shape a target fill
         | none => a)
      else a
    let b' := if b.shape ≠ target then
        (match fb with
         | some fill => fill_to_shape b target fill
         | none => b)
      else b
    (a', b')

/-- The whole shape-reconciliation block of `bin_pervade`: no repair when
the prefixes already match; otherwise the row pass, then (only if still
mismatched) the dimension pass. -/
def reconcile (a : UArray α) (b : UArray β) (fa : Option α) (fb : Option β) :
    UArray α × UArray β :=
  if a.shape_prefixes_match b then (a, b)
  else
    let ab := fill_rows_pass a b fa fb
    if ab.1.shape_prefixes_match ab.2 then ab
    else fill_dims_pass ab.1 ab.2 fa fb

/-- `slice::chunks(n)` with `n > 0` guaranteed by the caller
(`row_len().max(1)`); structural recursion on a fuel bounded by the
list length so that it evaluates by `rfl`/`decide`. -/
def chunks_aux (n : Nat) : Nat → List α → List (List α)
  | _, [] => []
  | 0, _ :: _ => []
  | fuel + 1, x :: l => (x :: l).take n :: chunks_aux n fuel ((x :: l).drop n)

/-- `slice::chunks(n)`: pieces of `n` elements, the last piece possibly
shorter.  The source never calls it with `n = 0`. -/
def list_chunks (n : Nat) (l : List α) : List (List α) := chunks_aux n l.length l

/-- `bin_pervade_recursive` with an infallible kernel (the
`InfalliblePervasiveFn` adapter): recursively decomposes the two row
views and applies the kernel at scalar leaves.  The source indexes
`data()[0]` at a scalar leaf, which the shape invariant keeps in bounds;
the embedding totalizes that read with `headD default`. -/
def bin_pervade_recursive [Inhabited α] [Inhabited β] (f : α → β → γ) :
    List Nat → List α → List Nat → List β → List γ
  | [], ad, [], bd => [f (ad.headD default) (bd.headD default)]
  | ash, ad, bsh, bd =>
    if ash = bsh then List.zipWith f ad bd
    else
      match ash, bsh with
      | [], _ :: bs =>
        ((list_chunks (bs.prod.max 1) bd).map fun br =>
          bin_pervade_recursive f [] ad bs br).flatten
      | _ :: as_, [] =>
        ((list_chunks (as_.prod.max 1) ad).map fun ar =>
          bin_pervade_recursive f as_ ar [] bd).flatten
      | _ :: as_, _ :: bs =>
        (((list_chunks (as_.prod.max 1) ad).zip (list_chunks (bs.prod.max 1) bd)).map
          fun p => bin_pervade_recursive f as_ p.1 bs p.2).flatten
      | [], [] => []
  termination_by ash _ bsh _ => ash.length + bsh.length

/-- `bin_pervade` for an infallible kernel: reconcile the shapes (fill
values standing in for `A::get_fill(env)` / `B::get_fill(env)`), fail
with the shape-mismatch error if the prefixes still differ, otherwise
build the result with shape `a.shape().max(b.shape())` and the
recursively pervaded data. -/
def bin_pervade [Inhabited α] [Inhabited β] (a : UArray α) (b : UArray β)
    (fa : Option α) (fb : Option β) (f : α → β → γ) : Except String (UArray γ) :=
  let ab := reconcile a b fa fb
  if ab.1.shape_prefixes_match ab.2 then
    .ok ⟨shapeMax ab.1.shape ab.2.shape,
      bin_pervade_recursive f ab.1.shape ab.1.data ab.2.shape ab.2.data⟩
  else
    .error ("Shapes do not match")

/-! ## Scalar kernel tables (pervade.rs)

The `f64` scalar kernels are modelled over `ℝ`; `powf` is real
exponentiation `Real.rpow` and `f64::log(self, base)` is
`Real.log self / Real.log base`. -/

namespace sub

/-- `sub::num_num`: `b - a`. -/
noncomputable def num_num (a b : ℝ) : ℝ := b - a

end sub

namespace div

/-- `div::num_num`: `b / a`. -/
noncomputable def num_num (a b : ℝ) : ℝ := b / a

end div

namespace pow

/-- `pow::num_num`: `b.powf(a)`. -/
noncomputable def num_num (a b : ℝ) : ℝ := Real.rpow b a

end pow

namespace log

/-- `log::num_num`: `b.log(a)`, i.e. `ln b / ln a`. -/
noncomputable def num_num (a b : ℝ) : ℝ := Real.log b / Real.log a

end log

/-! ## Monadic algorithms (monadic.rs) -/

/-- Row-major (odometer) enumeration of all multi-indices of a shape,
as produced by the `curr` increment loop in `fn range`. -/
def odometer : List Nat → List (List Nat)
  | [] => [[]]
  | d :: rest => (List.range d).flatMap fun i => (odometer rest).map (i :: ·)

/-- `fn range(shape, env)`: the flat data of a range array.  The `usize`
overflow check multiplies `shape.len()` by every dimension; with no zero
dimension the intermediate products are monotone, so overflow happens
exactly when the final product `shape.len() * prod(shape)` reaches
`2^64`. -/
def range (shape : List Nat) : Except String (List ℚ) :=
  if shape = [] then .ok [0]
  else if shape.contains 0 then .ok []
  else if 2 ^ 64 ≤ shape.length * shape.prod then
    .error ("Attempting to make a range from this shape would create an array that is too large")
  else .ok ((odometer shape).flatten.map fun n => (n : ℚ))

/-- `Value::range`: builds the array, appending the index length as a
trailing axis when the requested shape has rank > 1. -/
def value_range (shape : List Nat) : Except String (UArray ℚ) :=
  match range shape with
  | .error e => .error e
  | .ok data =>
    .ok ⟨if 1 < shape.length then shape ++ [shape.length] else shape, data⟩

namespace UArray

/-- `Array::first`: fail on a scalar and on shape `[0]`; otherwise drop
the leading dimension and truncate the data to one row. -/
def first (a : UArray α) : Except String (UArray α) :=
  match a.shape with
  | [] => .error ("Cannot take first of a scalar")
  | [0] => .error ("Cannot take first of an empty array")
  | _ => .ok ⟨a.shape.tail, a.data.take a.row_len⟩

/-- `Array::last`: like `first` but keeps the final row: it skips
`data.len() - row_len` elements.  That `usize` subtraction underflows
(a panic in a debug build) when the data is shorter than one row. -/
def last (a : UArray α) : Except String (UArray α) :=
  match a.shape with
  | [] => .error ("Cannot take last of a scalar")
  | [0] => .error ("Cannot take last of an empty array")
  | _ =>
    if a.data.length < a.row_len then .error ("panic: attempt to subtract with overflow")
    else .ok ⟨a.shape.tail, a.data.drop (a.data.length - a.row_len)⟩

/-- `Vec::rotate_left(1)` on the shape. -/
def shapeRotL (l : List Nat) : List Nat := l.drop 1 ++ l.take 1

/-- `Vec::rotate_right(1)` on the shape. -/
def shapeRotR (l : List Nat) : List Nat :=
  l.drop (l.length - 1) ++ l.take (l.length - 1)

/-- `Array::transpose`: identity below rank 2; an empty leading dimension
only rotates the shape; otherwise regroups `temp[j*row_count + i] =
data[i*row_len + j]` and rotates the shape left. -/
def transpose [Inhabited α] (a : UArray α) : UArray α :=
  if a.shape.length < 2 then a
  else if a.shape.headD 0 = 0 then ⟨shapeRotL a.shape, a.data⟩
  else
    ⟨shapeRotL a.shape,
      ((List.range a.row_len).map fun j =>
        (List.range a.row_count).map fun i =>
          a.data.getD (i * a.row_len + j) default).flatten⟩

/-- `Array::inv_transpose`: identity below rank 2; an empty leading
dimension only rotates the shape right; otherwise regroups with
`col_len = shape.last()` and `col_count` the product of the remaining
dimensions, and rotates the shape right. -/
def inv_transpose [Inhabited α] (a : UArray α) : UArray α :=
  if a.shape.length < 2 then a
  else if a.shape.headD 0 = 0 then ⟨shapeRotR a.shape, a.data⟩
  else
    ⟨shapeRotR a.shape,
      ((List.range (a.shape.getLastD 0)).map fun j =>
        (List.range a.shape.dropLast.prod).map fun i =>
          a.data.getD (i * a.shape.getLastD 0 + j) default).flatten⟩

end UArray

/-- Modelled from the spec (the ordering module is not among the sources):
`array_cmp` is a total, NaN-safe order on element values, abstracted here
as the comparison of a `LinearOrder`. -/
def elemCmp [LinearOrder α] (a b : α) : Ordering :=
  if a < b then .lt else if b < a then .gt else .eq

/-- The row comparator of `rise`: zip the two rows, compare element-wise
with `array_cmp`, and take the first non-equal result (`Equal` when all
compared pairs tie, as `zip` truncates to the shorter row). -/
def lexRowCmp [LinearOrder α] : List α → List α → Ordering
  | [], _ => .eq
  | _ :: _, [] => .eq
  | a :: r, b :: s =>
    match elemCmp a b with
    | .eq => lexRowCmp r s
    | o => o

/-- One insertion step of the comparison sort modelling `par_sort_by`. -/
def insertLe (le : α → α → Bool) (x : α) : List α → List α
  | [] => [x]
  | y :: l => if le x y then x :: y :: l else y :: insertLe le x l

/-- `par_sort_by` modelled as a comparison-based (insertion) sort: the
result is a permutation of the input that is sorted by the comparator;
the spec leaves the order of tied rows unspecified. -/
def sortByC (le : α → α → Bool) : List α → List α
  | [] => []
  | x :: l => insertLe le x (sortByC le l)

/-- The boolean "in order" relation a Rust `sort_by` establishes between
consecutive elements: the comparator does not return `Greater`. -/
def riseLe [LinearOrder α] (a : UArray α) (i j : Nat) : Bool :=
  lexRowCmp (a.row_slice i) (a.row_slice j) != Ordering.gt

/-- The comparator of `fall` swaps the operands of every element
comparison, which is exactly the row comparison in the other direction. -/
def fallLe [LinearOrder α] (a : UArray α) (i j : Nat) : Bool :=
  lexRowCmp (a.row_slice j) (a.row_slice i) != Ordering.gt

namespace UArray

/-- `Array::rise`: fail on a scalar, empty permutation for an empty
array, otherwise the row indices sorted ascending by the row order. -/
def rise [LinearOrder α] (a : UArray α) : Except String (List Nat) :=
  if a.rank = 0 then .error ("Cannot rise a scalar")
  else if a.flat_len = 0 then .ok []
  else .ok (sortByC (riseLe a) (List.range a.row_count))

/-- `Array::fall`: fail on a scalar, empty permutation for an empty
array, otherwise the row indices sorted descending by the row order. -/
def fall [LinearOrder α] (a : UArray α) : Except String (List Nat) :=
  if a.rank = 0 then .error ("Cannot fall a scalar")
  else if a.flat_len = 0 then .ok []
  else .ok (sortByC (fallLe a) (List.range a.row_count))

end UArray

/-- Index of the first occurrence of `r` (the length of the list when
`r` does not occur): the class id a `BTreeMap` keyed by rows with
first-seen values assigns. -/
def idx_of_row [DecidableEq β] : List β → β → Nat
  | [], _ => 0
  | s :: l, r => if s = r then 0 else idx_of_row l r + 1

/-- The classification loop of `Array::classify`: `seen` holds the
distinct rows already encountered, in first-seen order (the `classes`
map together with its insertion counter). -/
def classifyGo [DecidableEq β] (seen : List β) : List β → List Nat
  | [] => []
  | r :: l =>
    if r ∈ seen then idx_of_row seen r :: classifyGo seen l
    else seen.length :: classifyGo (seen ++ [r]) l

/-- The retention loop of `Array::deduplicate`: keep the rows not yet
seen, in order. -/
def dedupGo [DecidableEq β] (seen : List β) : List β → List β
  | [] => []
  | r :: l => if r ∈ seen then dedupGo seen l else r :: dedupGo (seen ++ [r]) l

/-- The distinct rows of a list in first-seen order. -/
def first_occurrences [DecidableEq β] (l : List β) : List β := dedupGo [] l

namespace UArray

/-- `Array::classify`: fail on rank 0, else assign each row the index of
its first occurrence among the distinct rows. -/
def classify [DecidableEq α] (a : UArray α) : Except String (List Nat) :=
  if a.rank = 0 then .error ("Cannot classify a rank-0 array")
  else .ok (classifyGo [] a.rows_list)

/-- `Array::deduplicate`: no-op on rank 0, else retain the first
occurrence of each distinct row and shrink the leading dimension. -/
def deduplicate [DecidableEq α] (a : UArray α) : UArray α :=
  if a.rank = 0 then a
  else
    let kept := first_occurrences a.rows_list
    ⟨a.shape.set 0 kept.length, kept.flatten⟩

end UArray

/-! ## Bit packing (monadic.rs) -/

/-- The `max_bits` loop of `Array::<f64>::bits` (halve until zero,
counting the steps), with a fuel argument so it evaluates by `rfl`:
`num_bits_aux fuel n` is the bit length of `n` whenever `n ≤ fuel`. -/
def num_bits_aux : Nat → Nat → Nat
  | _, 0 => 0
  | 0, _ + 1 => 0
  | fuel + 1, n + 1 => num_bits_aux fuel ((n + 1) / 2) + 1

/-- The bit length of a natural number (0 needs 0 bits). -/
def num_bits (n : Nat) : Nat := num_bits_aux n n

/-- The Rust saturating cast `f: f64 as u128` applied to a value with zero
fractional part: negative values clamp to 0 (via `Int.toNat`) and values
past the top of the range clamp to `2^128 - 1`. -/
def f64_to_u128 (q : ℚ) : Nat := min (2 ^ 128 - 1) ⌊q⌋.toNat

/-- `nats.iter().max()` with 0 for the empty list (the source treats the
empty case separately before using the maximum). -/
def listMaxNat (l : List Nat) : Nat := l.foldr max 0

namespace UArray

/-- `Array::<f64>::bits`: reject any element with a nonzero fractional
part, cast the elements to `u128`, and emit for every element the bits
`(n >> i) & 1` for `i` in `0..max_bits` as a new trailing axis (an empty
or all-zero array gets a 0-sized trailing axis). -/
def bits (a : UArray ℚ) : Except String (UArray Nat) :=
  if a.data.any (fun n => n.den != 1) then
    .error ("Array must be a list of naturals")
  else
    let nats := a.data.map f64_to_u128
    if nats = [] then .ok ⟨a.shape ++ [0], []⟩
    else
      let max_bits := num_bits (listMaxNat nats)
      .ok ⟨a.shape ++ [max_bits],
        nats.flatMap fun n =>
          (List.range max_bits).map fun i =>
            if n &&& (1 <<< i) != 0 then 1 else 0⟩

end UArray

/-- `slice::chunks_exact(n)`: only complete pieces of `n` elements, the
remainder dropped; panics in Rust when `n = 0` (the caller reaches that
state only through a division by zero, modelled in `inverse_bits`). -/
def chunks_exact_aux (n : Nat) : Nat → List α → List (List α)
  | 0, _ => []
  | fuel + 1, l => if n = 0 ∨ l.length < n then [] else l.take n :: chunks_exact_aux n fuel (l.drop n)

/-- `slice::chunks_exact(n)` via a length fuel, so it evaluates by `rfl`. -/
def chunks_exact (n : Nat) (l : List α) : List (List α) := chunks_exact_aux n l.length l

/-- The reconstruction loop of `inverse_bits`: `n |= 1 << i` for every
set bit, with `overflowing_shl` wrapping the shift amount modulo 128. -/
def decode_bits_aux : List Bool → Nat → Nat → Nat
  | [], acc, _ => acc
  | b :: l, acc, i =>
    decode_bits_aux l (if b then acc ||| (1 <<< (i % 128)) else acc) (i + 1)

/-- The number encoded by one bit string, least-significant bit first. -/
def decode_bits (l : List Bool) : Nat := decode_bits_aux l 0 0

namespace UArray

/-- `Array::<u8>::inverse_bits`: reject any element above 1; a rank-0
boolean becomes a scalar number; otherwise the last axis is the bit
string length and each group of that length is reconstructed into a
number.  With a 0-length last axis the source computes
`data.len() / bit_string_len = len / 0`, a division-by-zero panic. -/
def inverse_bits (a : UArray Nat) : Except String (UArray ℚ) :=
  if a.data.any (fun b => 1 < b) then
    .error ("Array must be a list of booleans")
  else
    let bools := a.data.map fun b => b != 0
    if a.shape = [] then .ok ⟨[], [if bools.headD false then 1 else 0]⟩
    else
      let bit_string_len := a.shape.getLastD 0
      if bit_string_len = 0 then .error ("panic: attempt to divide by zero")
      else
        .ok ⟨a.shape.dropLast,
          (chunks_exact bit_string_len bools).map fun bs => (decode_bits bs : ℚ)⟩

end UArray

/-! ## Lemmas: shape reconciliation and the pervasion shape law -/

theorem prefixes_match_nil_left (t : List Nat) : prefixes_match [] t = true := by
  simp [prefixes_match]

theorem prefixes_match_nil_right (s : List Nat) : prefixes_match s [] = true := by
  simp [prefixes_match]

theorem shapeMax_nil_left (t : List Nat) : shapeMax [] t = t := by
  cases t <;> simp [shapeMax, shapeLexLt]

theorem shapeMax_nil_right (t : List Nat) : shapeMax t [] = t := by
  cases t <;> simp [shapeMax, shapeLexLt]

/-- Under matching shape prefixes, the lexicographically larger shape is
exactly the element-wise maximum of the two shapes. -/
theorem shapeMax_eq_elementwise_max :
    ∀ s t : List Nat, prefixes_match s t = true → shapeMax s t = elementwise_max s t
  | [], t, _ => by rw [shapeMax_nil_left]; cases t <;> rfl
  | a :: s, [], _ => by rw [shapeMax_nil_right]; rfl
  | a :: s, b :: t, h => by
    have hab : a = b ∧ prefixes_match s t = true := by
      simpa [prefixes_match] using h
    obtain ⟨rfl, hst⟩ := hab
    have ih := shapeMax_eq_elementwise_max s t hst
    have hstep : shapeLexLt (a :: t) (a :: s) = shapeLexLt t s := by
      simp [shapeLexLt]
    by_cases hlt : shapeLexLt t s = true
    · have h1 : shapeMax (a :: s) (a :: t) = a :: s := by
        simp [shapeMax, hstep, hlt]
      have h2 : shapeMax s t = s := by simp [shapeMax, hlt]
      rw [h1, elementwise_max, ← ih, h2, max_self]
    · have h1 : shapeMax (a :: s) (a :: t) = a :: t := by
        simp [shapeMax, hstep, hlt]
      have h2 : shapeMax s t = t := by simp [shapeMax, hlt]
      rw [h1, elementwise_max, ← ih, h2, max_self]


/-! ## Claim C1: pervasion shape law -/

/-- C1: for arrays whose shape prefixes match, possibly after the
fill-based repair passes (`reconcile`), `bin_pervade` succeeds, and the
result's shape is the element-wise maximum of the two (possibly
repaired) operand shapes. -/
theorem bin_pervade_shape_law [Inhabited α] [Inhabited β]
    (a : UArray α) (b : UArray β) (fa : Option α) (fb : Option β) (f : α → β → γ)
    (h : (reconcile a b fa fb).1.shape_prefixes_match (reconcile a b fa fb).2 = true) :
    ∃ r, bin_pervade a b fa fb f = .ok r ∧
      r.shape = elementwise_max (reconcile a b fa fb).1.shape (reconcile a b fa fb).2.shape := by
  have hok : bin_pervade a b fa fb f =
      .ok ⟨shapeMax (reconcile a b fa fb).1.shape (reconcile a b fa fb).2.shape,
        bin_pervade_recursive f (reconcile a b fa fb).1.shape (reconcile a b fa fb).1.data
          (reconcile a b fa fb).2.shape (reconcile a b fa fb).2.data⟩ := by
    simp only [bin_pervade, h, if_true]
  exact ⟨_, hok, shapeMax_eq_elementwise_max _ _ h⟩

/-- Witness for C1 at concrete operands of shapes `[2]` and `[3]` with a
fill value available: the first operand is repaired to shape `[3]`. -/
theorem bin_pervade_shape_law_witness :
    (reconcile (⟨[2], [1, 2]⟩ : UArray Nat) (⟨[3], [10, 20, 30]⟩ : UArray Nat)
        (some 0) (some 0)).1.shape_prefixes_match
      (reconcile (⟨[2], [1, 2]⟩ : UArray Nat) (⟨[3], [10, 20, 30]⟩ : UArray Nat)
        (some 0) (some 0)).2 = true ∧
    ∃ r, bin_pervade (⟨[2], [1, 2]⟩ : UArray Nat) (⟨[3], [10, 20, 30]⟩ : UArray Nat)
        (some 0) (some 0) (· + ·) = .ok r ∧
      r.shape = elementwise_max
        (reconcile (⟨[2], [1, 2]⟩ : UArray Nat) (⟨[3], [10, 20, 30]⟩ : UArray Nat)
          (some 0) (some 0)).1.shape
        (reconcile (⟨[2], [1, 2]⟩ : UArray Nat) (⟨[3], [10, 20, 30]⟩ : UArray Nat)
          (some 0) (some 0)).2.shape :=
  ⟨by decide, bin_pervade_shape_law _ _ _ _ _ (by decide)⟩

/-! ## Claim C10: a scalar operand never causes a shape mismatch -/

/-- C10: with a rank-0 operand in either position and any fill
availability, the shape prefixes match vacuously, so `bin_pervade`
skips the whole reconciliation/fill block and always succeeds,
broadcasting the scalar: the result has the other operand's shape. -/
theorem bin_pervade_scalar_never_mismatch [Inhabited α] [Inhabited β]
    (a : UArray α) (b : UArray β) (fa : Option α) (fb : Option β)
    (f : α → β → γ) (g : β → α → δ) (h : a.shape = []) :
    reconcile a b fa fb = (a, b) ∧
    (∃ r, bin_pervade a b fa fb f = .ok r ∧ r.shape = b.shape) ∧
    reconcile b a fb fa = (b, a) ∧
    (∃ r, bin_pervade b a fb fa g = .ok r ∧ r.shape = b.shape) := by
  have hab : a.shape_prefixes_match b = true := by
    simp [UArray.shape_prefixes_match, h, prefixes_match_nil_left]
  have hba : b.shape_prefixes_match a = true := by
    simp [UArray.shape_prefixes_match, h, prefixes_match_nil_right]
  have hrab : reconcile a b fa fb = (a, b) := by simp [reconcile, hab]
  have hrba : reconcile b a fb fa = (b, a) := by simp [reconcile, hba]
  have hok1 : bin_pervade a b fa fb f =
      .ok ⟨shapeMax a.shape b.shape,
        bin_pervade_recursive f a.shape a.data b.shape b.data⟩ := by
    simp only [bin_pervade, hrab, hab, if_true]
  have hok2 : bin_pervade b a fb fa g =
      .ok ⟨shapeMax b.shape a.shape,
        bin_pervade_recursive g b.shape b.data a.shape a.data⟩ := by
    simp only [bin_pervade, hrba, hba, if_true]
  refine ⟨hrab, ⟨_, hok1, ?_⟩, hrba, ⟨_, hok2, ?_⟩⟩
  · simp only [h, shapeMax_nil_left]
  · simp only [h, shapeMax_nil_right]

/-- Witness for C10: the scalar 5 against a length-3 vector, with no fill
values available. -/
theorem bin_pervade_scalar_never_mismatch_witness :
    (⟨[], [5]⟩ : UArray Nat).shape = [] ∧
    reconcile (⟨[], [5]⟩ : UArray Nat) (⟨[3], [1, 2, 3]⟩ : UArray Nat) none none
      = (⟨[], [5]⟩, ⟨[3], [1, 2, 3]⟩) ∧
    (∃ r, bin_pervade (⟨[], [5]⟩ : UArray Nat) (⟨[3], [1, 2, 3]⟩ : UArray Nat)
        none none (· + ·) = .ok r ∧ r.shape = [3]) ∧
    reconcile (⟨[3], [1, 2, 3]⟩ : UArray Nat) (⟨[], [5]⟩ : UArray Nat) none none
      = (⟨[3], [1, 2, 3]⟩, ⟨[], [5]⟩) ∧
    (∃ r, bin_pervade (⟨[3], [1, 2, 3]⟩ : UArray Nat) (⟨[], [5]⟩ : UArray Nat)
        none none (· + ·) = .ok r ∧ r.shape = [3]) :=
  ⟨rfl, bin_pervade_scalar_never_mismatch (⟨[], [5]⟩ : UArray Nat)
    (⟨[3], [1, 2, 3]⟩ : UArray Nat) none none (· + ·) (· + ·) rfl⟩

/-! ## Claim C5: reversed-operand convention of the numeric kernels -/

/-- C5: every binary numeric kernel applies its second argument as the
receiver and its first as the modifier: `sub` computes `b - a`, `div`
computes `b / a`, `pow` raises `b` to the power `a`, `log` takes the
log of `b` in base `a`; concretely `sub.num_num 3 10 = 7`. -/
theorem numeric_kernels_reverse_args (a b : ℝ) :
    sub.num_num a b = b - a ∧ div.num_num a b = b / a ∧
    pow.num_num a b = b ^ a ∧ log.num_num a b = Real.logb a b ∧
    sub.num_num 3 10 = 7 := by
  refine ⟨rfl, rfl, rfl, ?_, ?_⟩
  · rw [Real.logb]; rfl
  · norm_num [sub.num_num]

/-! ## Claim C9: range([2,3]) -/

/-- C9: `range` applied to the shape `[2,3]` succeeds with shape
`[2,3,2]` and data enumerating the multi-indices `[0,0]`, `[0,1]`,
`[0,2]`, `[1,0]`, `[1,1]`, `[1,2]` in row-major order along the
trailing axis. -/
theorem value_range_two_three :
    value_range [2, 3] =
      .ok ⟨[2, 3, 2], [0, 0, 0, 1, 0, 2, 1, 0, 1, 1, 1, 2]⟩ := by
  decide

/-! ## Claim C2: first/last on an empty leading dimension (code bug) -/

/-- C2 (failing input): on shape `[0,3]` — an empty leading dimension of
rank 2 — `first` does not fail: it returns shape `[3]` with no data,
violating the length-equals-shape-product invariant, and `last`
underflows the `usize` subtraction `data.len() - row_len`.  Only the
shape `[0]` is rejected by the source's match. -/
theorem first_last_empty_leading_dim :
    UArray.first (⟨[0, 3], []⟩ : UArray ℚ) = .ok ⟨[3], []⟩ ∧
    ¬ (⟨[3], ([] : List ℚ)⟩ : UArray ℚ).wf ∧
    UArray.last (⟨[0, 3], []⟩ : UArray ℚ) =
      .error ("panic: attempt to subtract with overflow") := by
  decide

/-! ## Claim C4: bits accepts negative integral values (code bug) -/

/-- C4 (failing input): `bits` on `[-3.0]` does not report "must be
naturals": the fract-only check passes, the saturating `u128` cast turns
-3 into 0, and the call succeeds with an empty bit axis. -/
theorem bits_accepts_negative_integral :
    UArray.bits ⟨[1], [(-3 : ℚ)]⟩ = .ok ⟨[1, 0], []⟩ := by
  decide

/-! ## Lemmas: transpose -/

theorem index_two_lt {a b A B : Nat} (ha : a < A) (hb : b < B) :
    a * B + b < A * B := by
  calc a * B + b < a * B + B := by omega
    _ = (a + 1) * B := by ring
    _ ≤ A * B := Nat.mul_le_mul_right _ ha

/-- Flattening a doubly-indexed table built from two `List.range`s is the
row-major enumeration of `g (k / m) (k % m)`. -/
theorem flatten_map_range (n m : Nat) (g : Nat → Nat → α) :
    ((List.range n).map fun j => (List.range m).map (g j)).flatten
      = (List.range (n * m)).map fun k => g (k / m) (k % m) := by
  rcases Nat.eq_zero_or_pos m with hm | hm
  · subst hm
    simp
  · induction n with
    | zero => simp
    | succ n ih =>
      rw [List.range_succ, List.map_append, List.flatten_append, ih,
        Nat.succ_mul, List.range_add, List.map_append, List.map_map]
      congr 1
      simp only [List.map_singleton, List.flatten_singleton, Function.comp_def]
      apply List.map_congr_left
      intro i hi
      have hi' : i < m := List.mem_range.mp hi
      have h1 : (n * m + i) / m = n := by
        rw [Nat.mul_comm n m, Nat.mul_add_div hm, Nat.div_eq_of_lt hi', Nat.add_zero]
      have h2 : (n * m + i) % m = i := by
        rw [Nat.mul_comm n m, Nat.mul_add_mod, Nat.mod_eq_of_lt hi']
      rw [h1, h2]

theorem shapeRotR_concat (l : List Nat) (a : Nat) :
    UArray.shapeRotR (l ++ [a]) = a :: l := by
  unfold UArray.shapeRotR
  have h : (l ++ [a]).length - 1 = l.length := by simp
  rw [h, List.drop_left, List.take_left, List.singleton_append]

/-- The main branch of `transpose`, rewritten to a single row-major map. -/
theorem transpose_main (d : List α) [Inhabited α] (s0 s1 : Nat) (rest : List Nat)
    (h0 : s0 ≠ 0) :
    (⟨s0 :: s1 :: rest, d⟩ : UArray α).transpose
      = ⟨(s1 :: rest) ++ [s0],
        (List.range ((s1 :: rest).prod * s0)).map fun k =>
          d.getD ((k % s0) * (s1 :: rest).prod + k / s0) default⟩ := by
  unfold UArray.transpose
  rw [if_neg (by simp), if_neg (by simpa using h0)]
  simp only [UArray.row_len, UArray.row_count, UArray.shapeRotL]
  rw [flatten_map_range]
  rfl

/-- The main branch of `inv_transpose`, rewritten to a single row-major map. -/
theorem inv_transpose_main (d : List α) [Inhabited α] (s1 : Nat) (mid : List Nat) (s0 : Nat)
    (h1 : s1 ≠ 0) :
    (⟨(s1 :: mid) ++ [s0], d⟩ : UArray α).inv_transpose
      = ⟨s0 :: s1 :: mid,
        (List.range (s0 * (s1 :: mid).prod)).map fun k =>
          d.getD ((k % (s1 :: mid).prod) * s0 + k / (s1 :: mid).prod) default⟩ := by
  unfold UArray.inv_transpose
  rw [if_neg (by simp), if_neg (by simpa using h1)]
  have hlast : ((s1 :: mid) ++ [s0] : List Nat).getLastD 0 = s0 := by
    rw [List.getLastD_eq_getLast?, List.getLast?_concat]; rfl
  have hinit : ((s1 :: mid) ++ [s0] : List Nat).dropLast = s1 :: mid :=
    List.dropLast_concat
  dsimp only
  rw [hlast, hinit, flatten_map_range, shapeRotR_concat]

/-! ## Claim C6: transpose and inverse transpose are mutual inverses -/

/-- C6: for every array of rank at least 2 with a nonzero leading
dimension (and well-formed data), `inv_transpose (transpose x) = x`:
the round trip restores both the shape and the flat data. -/
theorem transpose_round_trip [Inhabited α] (x : UArray α) (s0 s1 : Nat) (rest : List Nat)
    (hs : x.shape = s0 :: s1 :: rest) (h0 : s0 ≠ 0) (hwf : x.wf) :
    x.transpose.inv_transpose = x := by
  obtain ⟨sh, d⟩ := x
  obtain rfl : sh = s0 :: s1 :: rest := hs
  have hwf' : d.length = s0 * (s1 :: rest).prod := by
    simpa [List.prod_cons] using hwf
  rw [transpose_main d s0 s1 rest h0]
  by_cases h1 : s1 = 0
  · -- the transposed array has an empty leading dimension: only the
    -- shape is rotated back, and the data was empty to begin with
    subst h1
    have hprod0 : ((0 : Nat) :: rest).prod = 0 := by simp
    have hd : d = [] := by
      rw [hprod0, Nat.mul_zero] at hwf'
      exact List.eq_nil_of_length_eq_zero hwf'
    unfold UArray.inv_transpose
    rw [if_neg (by simp), if_pos (by simp)]
    rw [shapeRotR_concat, hd, hprod0]
    simp
  · rw [inv_transpose_main _ s1 rest s0 h1]
    congr 1
    generalize hg : (s1 :: rest : List Nat).prod = rl at hwf' ⊢
    apply List.ext_getElem
    · simp [hwf']
    · intro k hk1 hk2
      have hklt : k < s0 * rl := by simpa using hk1
      have hrlpos : 0 < rl := by
        rcases Nat.eq_zero_or_pos rl with h | h
        · rw [h, Nat.mul_zero] at hklt; omega
        · exact h
      have hs0pos : 0 < s0 := Nat.pos_of_ne_zero h0
      have hkmod : k % rl < rl := Nat.mod_lt _ hrlpos
      have hkdiv : k / rl < s0 := by
        rw [Nat.div_lt_iff_lt_mul hrlpos]; omega
      have hidx : (k % rl) * s0 + k / rl < rl * s0 := index_two_lt hkmod hkdiv
      simp only [List.getElem_map, List.getElem_range]
      have hTidx : ((k % rl) * s0 + k / rl) < ((List.range (rl * s0)).map fun k =>
          d.getD ((k % s0) * rl + k / s0) default).length := by
        simpa using hidx
      rw [List.getD_eq_getElem _ _ hTidx]
      simp only [List.getElem_map, List.getElem_range]
      have hm1 : ((k % rl) * s0 + k / rl) % s0 = k / rl := by
        rw [Nat.mul_comm (k % rl) s0, Nat.mul_add_mod, Nat.mod_eq_of_lt hkdiv]
      have hm2 : ((k % rl) * s0 + k / rl) / s0 = k % rl := by
        rw [Nat.mul_comm (k % rl) s0, Nat.mul_add_div hs0pos,
          Nat.div_eq_of_lt hkdiv, Nat.add_zero]
      rw [hm1, hm2]
      have hback : (k / rl) * rl + k % rl = k := by
        rw [Nat.mul_comm]; exact Nat.div_add_mod k rl
      rw [hback]
      exact List.getD_eq_getElem _ _ (by omega)

/-- Witness for C6 at the 2x2 array [[1,2],[3,4]]. -/
theorem transpose_round_trip_witness :
    (⟨[2, 2], [1, 2, 3, 4]⟩ : UArray Nat).shape = 2 :: 2 :: [] ∧ (2 : Nat) ≠ 0 ∧
    (⟨[2, 2], [1, 2, 3, 4]⟩ : UArray Nat).wf ∧
    (⟨[2, 2], [1, 2, 3, 4]⟩ : UArray Nat).transpose.inv_transpose = ⟨[2, 2], [1, 2, 3, 4]⟩ :=
  ⟨rfl, by decide, by decide, transpose_round_trip _ 2 2 [] rfl (by decide) (by decide)⟩

/-! ## Lemmas: classification and deduplication -/

theorem idx_of_row_append_of_mem [DecidableEq β] (s t : List β) (r : β) (h : r ∈ s) :
    idx_of_row (s ++ t) r = idx_of_row s r := by
  induction s with
  | nil => cases h
  | cons x s ih =>
    by_cases hx : x = r
    · simp [idx_of_row, hx]
    · have hr : r ∈ s := by
        rcases List.mem_cons.mp h with h1 | h1
        · exact absurd h1.symm hx
        · exact h1
      simp [idx_of_row, hx, ih hr]

theorem idx_of_row_append_self [DecidableEq β] (s t : List β) (r : β) (h : r ∉ s) :
    idx_of_row (s ++ r :: t) r = s.length := by
  induction s with
  | nil => simp [idx_of_row]
  | cons x s ih =>
    have hx : x ≠ r := fun hc => h (hc ▸ List.mem_cons_self x s)
    have hr : r ∉ s := fun hc => h (List.mem_cons_of_mem x hc)
    simp [idx_of_row, hx, ih hr]

theorem idx_of_row_lt_length [DecidableEq β] (l : List β) (r : β) (h : r ∈ l) :
    idx_of_row l r < l.length := by
  induction l with
  | nil => cases h
  | cons x l ih =>
    by_cases hx : x = r
    · simp [idx_of_row, hx]
    · have hr : r ∈ l := by
        rcases List.mem_cons.mp h with h1 | h1
        · exact absurd h1.symm hx
        · exact h1
      simpa [idx_of_row, hx] using ih hr

theorem getElem?_idx_of_row [DecidableEq β] (l : List β) (r : β) (h : r ∈ l) :
    l[idx_of_row l r]? = some r := by
  induction l with
  | nil => cases h
  | cons x l ih =>
    by_cases hx : x = r
    · simp [idx_of_row, hx]
    · have hr : r ∈ l := by
        rcases List.mem_cons.mp h with h1 | h1
        · exact absurd h1.symm hx
        · exact h1
      simpa [idx_of_row, hx] using ih hr

theorem idx_of_row_min [DecidableEq β] (l : List β) (r : β) (j : Nat)
    (hj : j < idx_of_row l r) : l[j]? ≠ some r := by
  induction l generalizing j with
  | nil => simp [idx_of_row] at hj
  | cons x l ih =>
    by_cases hx : x = r
    · simp [idx_of_row, hx] at hj
    · cases j with
      | zero => simpa using fun hc => hx hc
      | succ j =>
        have hj' : j < idx_of_row l r := by
          simp only [idx_of_row, hx, if_false] at hj
          omega
        simpa using ih j hj'

theorem idx_of_row_of_nodup [DecidableEq β] (l : List β) (hl : l.Nodup) (i : Nat) (r : β)
    (h : l[i]? = some r) : idx_of_row l r = i := by
  induction l generalizing i with
  | nil => simp at h
  | cons x l ih =>
    cases i with
    | zero =>
      have : x = r := by simpa using h
      simp [idx_of_row, this]
    | succ i =>
      have hmem : r ∈ l := List.getElem?_mem (by simpa using h)
      have hx : x ≠ r := by
        intro hc
        exact (List.nodup_cons.mp hl).1 (hc ▸ hmem)
      have := ih (List.nodup_cons.mp hl).2 i (by simpa using h)
      simp [idx_of_row, hx, this]

theorem dedupGo_sub [DecidableEq β] :
    ∀ (l seen : List β), ∀ r ∈ dedupGo seen l, r ∈ l := by
  intro l
  induction l with
  | nil => intro seen r h; simp [dedupGo] at h
  | cons x l ih =>
    intro seen r h
    by_cases hx : x ∈ seen
    · simp only [dedupGo, if_pos hx] at h
      exact List.mem_cons_of_mem x (ih seen r h)
    · simp only [dedupGo, if_neg hx] at h
      rcases List.mem_cons.mp h with h1 | h1
      · exact h1 ▸ List.mem_cons_self x l
      · exact List.mem_cons_of_mem x (ih (seen ++ [x]) r h1)

theorem dedupGo_nodup [DecidableEq β] :
    ∀ (l seen : List β), (dedupGo seen l).Nodup ∧ ∀ r ∈ dedupGo seen l, r ∉ seen := by
  intro l
  induction l with
  | nil => intro seen; simp [dedupGo]
  | cons x l ih =>
    intro seen
    by_cases hx : x ∈ seen
    · simpa only [dedupGo, if_pos hx] using ih seen
    · simp only [dedupGo, if_neg hx]
      obtain ⟨hnd, hns⟩ := ih (seen ++ [x])
      refine ⟨List.nodup_cons.mpr ⟨?_, hnd⟩, ?_⟩
      · intro hc
        exact hns x hc (by simp)
      · intro r hr
        rcases List.mem_cons.mp hr with h1 | h1
        · exact h1 ▸ hx
        · intro hc
          exact hns r h1 (by simp [hc])

theorem mem_dedupGo [DecidableEq β] :
    ∀ (l seen : List β), ∀ r ∈ l, r ∈ seen ∨ r ∈ dedupGo seen l := by
  intro l
  induction l with
  | nil => intro seen r h; cases h
  | cons x l ih =>
    intro seen r h
    by_cases hx : x ∈ seen
    · simp only [dedupGo, if_pos hx]
      rcases List.mem_cons.mp h with h1 | h1
      · exact Or.inl (h1 ▸ hx)
      · exact ih seen r h1
    · simp only [dedupGo, if_neg hx]
      rcases List.mem_cons.mp h with h1 | h1
      · exact Or.inr (h1 ▸ List.mem_cons_self x _)
      · rcases ih (seen ++ [x]) r h1 with h2 | h2
        · rcases List.mem_append.mp h2 with h3 | h3
          · exact Or.inl h3
          · exact Or.inr (by simpa using Or.inl (by simpa using h3))
        · exact Or.inr (List.mem_cons_of_mem x h2)

/-- The classification pass assigns every row its index among the distinct
rows of the final first-seen list. -/
theorem classifyGo_eq [DecidableEq β] :
    ∀ (l seen : List β), classifyGo seen l
      = l.map fun r => idx_of_row (seen ++ dedupGo seen l) r := by
  intro l
  induction l with
  | nil => intro seen; rfl
  | cons x l ih =>
    intro seen
    by_cases hx : x ∈ seen
    · simp only [classifyGo, dedupGo, if_pos hx, List.map_cons]
      rw [idx_of_row_append_of_mem _ _ _ hx, ih seen]
    · simp only [classifyGo, dedupGo, if_neg hx, List.map_cons]
      rw [idx_of_row_append_self _ _ _ hx, ih (seen ++ [x])]
      congr 1
      apply List.map_congr_left
      intro r _
      rw [List.append_assoc, List.singleton_append]

theorem length_row_slice (x : UArray α) (d : Nat) (rest : List Nat)
    (hs : x.shape = d :: rest) (hwf : x.wf) (i : Nat) (hi : i < d) :
    (x.row_slice i).length = rest.prod := by
  have hrl : x.row_len = rest.prod := by simp [UArray.row_len, hs]
  have hlen : x.data.length = d * rest.prod := by
    rw [UArray.wf, hs, List.prod_cons] at hwf; exact hwf
  simp only [UArray.row_slice, hrl, List.length_take, List.length_drop, hlen]
  have h1 : i * rest.prod + rest.prod ≤ d * rest.prod := by
    have h2 := Nat.mul_le_mul_right rest.prod (Nat.succ_le_of_lt hi)
    simpa [Nat.succ_mul] using h2
  omega

theorem flatten_drop_uniform (n : Nat) (L : List (List α))
    (hL : ∀ l ∈ L, l.length = n) (i : Nat) :
    L.flatten.drop (i * n) = (L.drop i).flatten := by
  induction i generalizing L with
  | zero => simp
  | succ i ih =>
    cases L with
    | nil => simp
    | cons l L =>
      have hl : l.length = n := hL l (List.mem_cons_self _ _)
      have hstep : (i + 1) * n = n + i * n := by ring
      have h0 : (l ++ L.flatten).drop n = L.flatten := by
        rw [← hl]; exact List.drop_left l L.flatten
      rw [hstep, ← List.drop_drop, List.flatten_cons, h0,
        ih L fun r hr => hL r (List.mem_cons_of_mem l hr)]
      rfl

/-- Rows of an array assembled from a list of equal-length rows. -/
theorem rows_list_flatten (rest : List Nat) (K : List (List α))
    (hK : ∀ l ∈ K, l.length = rest.prod) :
    (⟨K.length :: rest, K.flatten⟩ : UArray α).rows_list = K := by
  unfold UArray.rows_list
  apply List.ext_getElem
  · simp [UArray.row_count]
  · intro i h1 h2
    have hi : i < K.length := h2
    simp only [List.getElem_map, List.getElem_range]
    show ((K.flatten.drop (i * rest.prod)).take rest.prod) = K[i]
    rw [flatten_drop_uniform rest.prod K hK i, List.drop_eq_getElem_cons hi,
      List.flatten_cons, ← hK (K[i]) (List.getElem_mem hi), List.take_left]

/-! ## Claim C8: classify and deduplicate -/

/-- C8: on any array of rank >= 1, `classify` succeeds with one class id
per row in original order; each row's class is the position of that row
among the distinct rows in first-seen order (`first_occurrences`), so
class ids count first occurrences from 0; and row `i` of `deduplicate`
equals the first row of the array whose class is `i`. -/
theorem classify_deduplicate_law [DecidableEq α] (x : UArray α) (d : Nat) (rest : List Nat)
    (hs : x.shape = d :: rest) (hwf : x.wf) :
    ∃ cs : List Nat, x.classify = .ok cs ∧
      cs.length = x.rows_list.length ∧
      (∀ (i : Nat) (r : List α), x.rows_list[i]? = some r →
        cs[i]? = some (idx_of_row (first_occurrences x.rows_list) r)) ∧
      (∀ (i : Nat) (r : List α), x.deduplicate.rows_list[i]? = some r →
        ∃ j : Nat, x.rows_list[j]? = some r ∧ cs[j]? = some i ∧
          ∀ j' : Nat, j' < j → cs[j']? ≠ some i) := by
  have hrank : ¬ x.rank = 0 := by simp [UArray.rank, hs]
  have hcls : x.classify = .ok (classifyGo [] x.rows_list) := by
    unfold UArray.classify
    rw [if_neg hrank]
  have hmap : classifyGo [] x.rows_list
      = x.rows_list.map fun r => idx_of_row (first_occurrences x.rows_list) r := by
    rw [classifyGo_eq]
    rfl
  have hrowlen : ∀ l ∈ x.rows_list, l.length = rest.prod := by
    intro l hl
    unfold UArray.rows_list at hl
    rcases List.mem_map.mp hl with ⟨i, hi, rfl⟩
    have hid : i < d := by
      have hmr := List.mem_range.mp hi
      simpa [UArray.row_count, hs] using hmr
    exact length_row_slice x d rest hs hwf i hid
  have hFlen : ∀ l ∈ first_occurrences x.rows_list, l.length = rest.prod :=
    fun l hl => hrowlen l (dedupGo_sub x.rows_list [] l hl)
  refine ⟨classifyGo [] x.rows_list, hcls, ?_, ?_, ?_⟩
  · rw [hmap]; simp
  · intro i r hir
    rw [hmap, List.getElem?_map, hir]
    rfl
  · intro i r hir
    have hdd : x.deduplicate
        = ⟨x.shape.set 0 (first_occurrences x.rows_list).length,
           (first_occurrences x.rows_list).flatten⟩ := by
      unfold UArray.deduplicate
      rw [if_neg hrank]
    have hset : x.shape.set 0 (first_occurrences x.rows_list).length
        = (first_occurrences x.rows_list).length :: rest := by rw [hs]; rfl
    have hFrows : x.deduplicate.rows_list = first_occurrences x.rows_list := by
      rw [hdd, hset]
      exact rows_list_flatten rest _ hFlen
    rw [hFrows] at hir
    have hrF : r ∈ first_occurrences x.rows_list := List.getElem?_mem hir
    have hrRows : r ∈ x.rows_list := dedupGo_sub x.rows_list [] r hrF
    refine ⟨idx_of_row x.rows_list r, getElem?_idx_of_row x.rows_list r hrRows, ?_, ?_⟩
    · rw [hmap, List.getElem?_map, getElem?_idx_of_row x.rows_list r hrRows]
      have hnd : (first_occurrences x.rows_list).Nodup := (dedupGo_nodup x.rows_list []).1
      show some (idx_of_row (first_occurrences x.rows_list) r) = some i
      rw [idx_of_row_of_nodup _ hnd i r hir]
    · intro j' hj' hc
      rw [hmap, List.getElem?_map] at hc
      cases hrj : x.rows_list[j']? with
      | none => rw [hrj] at hc; simp at hc
      | some r' =>
        rw [hrj] at hc
        have hci : idx_of_row (first_occurrences x.rows_list) r' = i := by
          simpa using hc
        have hr'Rows : r' ∈ x.rows_list := List.getElem?_mem hrj
        have hr'F : r' ∈ first_occurrences x.rows_list := by
          rcases mem_dedupGo x.rows_list [] r' hr'Rows with h | h
          · cases h
          · exact h
        have hFi : (first_occurrences x.rows_list)[i]? = some r' := by
          rw [← hci]
          exact getElem?_idx_of_row _ r' hr'F
        have hrr : r' = r := by
          rw [hFi] at hir
          exact Option.some.inj hir
        exact idx_of_row_min x.rows_list r j' hj' (hrr ▸ hrj)

/-- Witness for C8 at the array [1,2,1,3,2] of shape [5]. -/
theorem classify_deduplicate_law_witness :
    (⟨[5], [1, 2, 1, 3, 2]⟩ : UArray Nat).shape = 5 :: [] ∧
    (⟨[5], [1, 2, 1, 3, 2]⟩ : UArray Nat).wf ∧
    (∃ cs : List Nat, (⟨[5], [1, 2, 1, 3, 2]⟩ : UArray Nat).classify = .ok cs ∧
      cs.length = (⟨[5], [1, 2, 1, 3, 2]⟩ : UArray Nat).rows_list.length ∧
      (∀ (i : Nat) (r : List Nat),
        (⟨[5], [1, 2, 1, 3, 2]⟩ : UArray Nat).rows_list[i]? = some r →
        cs[i]? = some (idx_of_row
          (first_occurrences (⟨[5], [1, 2, 1, 3, 2]⟩ : UArray Nat).rows_list) r)) ∧
      (∀ (i : Nat) (r : List Nat),
        (⟨[5], [1, 2, 1, 3, 2]⟩ : UArray Nat).deduplicate.rows_list[i]? = some r →
        ∃ j : Nat, (⟨[5], [1, 2, 1, 3, 2]⟩ : UArray Nat).rows_list[j]? = some r ∧
          cs[j]? = some i ∧ ∀ j' : Nat, j' < j → cs[j']? ≠ some i)) :=
  ⟨rfl, by decide, classify_deduplicate_law _ 5 [] rfl (by decide)⟩

/-! ## Lemmas: row comparison and sorting -/

theorem bne_gt_iff (o : Ordering) : (o != Ordering.gt) = true ↔ o ≠ Ordering.gt := by
  cases o <;> decide

theorem elemCmp_eq_lt [LinearOrder α] {a b : α} : elemCmp a b = .lt ↔ a < b := by
  unfold elemCmp
  split_ifs with h1 h2
  · simp [h1]
  · simp [h1]
  · simp [h1]

theorem elemCmp_eq_gt [LinearOrder α] {a b : α} : elemCmp a b = .gt ↔ b < a := by
  unfold elemCmp
  split_ifs with h1 h2
  · simp [lt_asymm h1]
  · simp [h2]
  · simp [h2]

theorem elemCmp_eq_eq [LinearOrder α] {a b : α} : elemCmp a b = .eq ↔ a = b := by
  unfold elemCmp
  split_ifs with h1 h2
  · simp [ne_of_lt h1]
  · simp [(ne_of_lt h2).symm]
  · simp [le_antisymm (not_lt.mp h2) (not_lt.mp h1)]

theorem lexRowCmp_swap [LinearOrder α] : ∀ (r s : List α), lexRowCmp s r = (lexRowCmp r s).swap
  | [], [] => rfl
  | [], _ :: _ => rfl
  | _ :: _, [] => rfl
  | a :: r, b :: s => by
    simp only [lexRowCmp]
    rcases lt_trichotomy a b with h | h | h
    · rw [elemCmp_eq_lt.mpr h, elemCmp_eq_gt.mpr h]
      rfl
    · rw [elemCmp_eq_eq.mpr h, elemCmp_eq_eq.mpr h.symm]
      exact lexRowCmp_swap r s
    · rw [elemCmp_eq_gt.mpr h, elemCmp_eq_lt.mpr h]
      rfl

theorem lexRowCmp_trans [LinearOrder α] :
    ∀ (r s t : List α), r.length = s.length → s.length = t.length →
      lexRowCmp r s ≠ .gt → lexRowCmp s t ≠ .gt → lexRowCmp r t ≠ .gt
  | [], _, t, _, _, _, _ => by
    cases t <;> simp [lexRowCmp]
  | a :: r, s, t, h1, h2, hrs, hst => by
    cases s with
    | nil => simp at h1
    | cons b s =>
      cases t with
      | nil => simp at h2
      | cons c t =>
        simp only [lexRowCmp] at hrs hst ⊢
        rcases lt_trichotomy a b with hab | hab | hab
        · rcases lt_trichotomy b c with hbc | hbc | hbc
          · rw [elemCmp_eq_lt.mpr (lt_trans hab hbc)]
            simp
          · rw [elemCmp_eq_lt.mpr (hbc ▸ hab)]
            simp
          · rw [elemCmp_eq_gt.mpr hbc] at hst
            simp at hst
        · subst hab
          rw [elemCmp_eq_eq.mpr rfl] at hrs
          rcases lt_trichotomy a c with hac | hac | hac
          · rw [elemCmp_eq_lt.mpr hac]
            simp
          · subst hac
            rw [elemCmp_eq_eq.mpr rfl] at hst ⊢
            exact lexRowCmp_trans r s t (by simpa using h1) (by simpa using h2) hrs hst
          · rw [elemCmp_eq_gt.mpr hac] at hst
            simp at hst
        · rw [elemCmp_eq_gt.mpr hab] at hrs
          simp at hrs

theorem insertLe_perm (le : α → α → Bool) (x : α) (l : List α) :
    (insertLe le x l).Perm (x :: l) := by
  induction l with
  | nil => exact List.Perm.refl _
  | cons y l ih =>
    unfold insertLe
    by_cases h : le x y = true
    · rw [if_pos h]
    · rw [if_neg h]
      exact (ih.cons y).trans (List.Perm.swap x y l)

theorem sortByC_perm (le : α → α → Bool) (l : List α) : (sortByC le l).Perm l := by
  induction l with
  | nil => exact List.Perm.refl _
  | cons x l ih =>
    exact (insertLe_perm le x (sortByC le l)).trans (ih.cons x)

theorem pairwise_insertLe (le : α → α → Bool) (x : α) (l : List α)
    (htot : ∀ b ∈ l, le x b = true ∨ le b x = true)
    (htrans : ∀ a b c, a ∈ x :: l → b ∈ x :: l → c ∈ x :: l →
      le a b = true → le b c = true → le a c = true)
    (hl : l.Pairwise fun a b => le a b = true) :
    (insertLe le x l).Pairwise fun a b => le a b = true := by
  induction l with
  | nil => simp [insertLe]
  | cons y l ih =>
    unfold insertLe
    by_cases hxy : le x y = true
    · rw [if_pos hxy]
      refine List.Pairwise.cons ?_ hl
      intro b hb
      rcases List.mem_cons.mp hb with rfl | hb'
      · exact hxy
      · have hyb : le y b = true := (List.pairwise_cons.mp hl).1 b hb'
        exact htrans x y b (by simp) (by simp) (by simp [hb']) hxy hyb
    · rw [if_neg hxy]
      have hyx : le y x = true := by
        rcases htot y (by simp) with h | h
        · exact absurd h hxy
        · exact h
      refine List.Pairwise.cons ?_ ?_
      · intro b hb
        have hb2 : b ∈ x :: l := (insertLe_perm le x l).mem_iff.mp hb
        rcases List.mem_cons.mp hb2 with rfl | hb'
        · exact hyx
        · exact (List.pairwise_cons.mp hl).1 b hb'
      · apply ih
        · intro b hb
          exact htot b (List.mem_cons_of_mem y hb)
        · intro a b c ha hb hc
          have lift : ∀ z, z ∈ x :: l → z ∈ x :: y :: l := by
            intro z hz
            rcases List.mem_cons.mp hz with rfl | hz'
            · exact List.mem_cons_self _ _
            · exact List.mem_cons_of_mem _ (List.mem_cons_of_mem _ hz')
          exact htrans a b c (lift a ha) (lift b hb) (lift c hc)
        · exact (List.pairwise_cons.mp hl).2

theorem pairwise_sortByC (le : α → α → Bool) (l : List α)
    (htot : ∀ a ∈ l, ∀ b ∈ l, le a b = true ∨ le b a = true)
    (htrans : ∀ a b c, a ∈ l → b ∈ l → c ∈ l →
      le a b = true → le b c = true → le a c = true) :
    (sortByC le l).Pairwise fun a b => le a b = true := by
  induction l with
  | nil => simp [sortByC]
  | cons x l ih =>
    show (insertLe le x (sortByC le l)).Pairwise fun a b => le a b = true
    have hmem : ∀ z, z ∈ sortByC le l → z ∈ l :=
      fun z hz => (sortByC_perm le l).mem_iff.mp hz
    apply pairwise_insertLe
    · intro b hb
      exact htot x (by simp) b (List.mem_cons_of_mem _ (hmem b hb))
    · intro a b c ha hb hc
      have lift : ∀ z, z ∈ x :: sortByC le l → z ∈ x :: l := by
        intro z hz
        rcases List.mem_cons.mp hz with rfl | hz'
        · exact List.mem_cons_self _ _
        · exact List.mem_cons_of_mem _ (hmem z hz')
      exact htrans a b c (lift a ha) (lift b hb) (lift c hc)
    · apply ih
      · intro a ha b hb
        exact htot a (List.mem_cons_of_mem _ ha) b (List.mem_cons_of_mem _ hb)
      · intro a b c ha hb hc
        exact htrans a b c (List.mem_cons_of_mem _ ha) (List.mem_cons_of_mem _ hb)
          (List.mem_cons_of_mem _ hc)

theorem riseLe_total [LinearOrder α] (a : UArray α) (i j : Nat) :
    riseLe a i j = true ∨ riseLe a j i = true := by
  unfold riseLe
  by_cases h : lexRowCmp (a.row_slice i) (a.row_slice j) = .gt
  · right
    rw [bne_gt_iff, lexRowCmp_swap, h]
    decide
  · left
    exact (bne_gt_iff _).mpr h

theorem fallLe_total [LinearOrder α] (a : UArray α) (i j : Nat) :
    fallLe a i j = true ∨ fallLe a j i = true := by
  unfold fallLe
  by_cases h : lexRowCmp (a.row_slice j) (a.row_slice i) = .gt
  · right
    rw [bne_gt_iff, lexRowCmp_swap, h]
    decide
  · left
    exact (bne_gt_iff _).mpr h

/-! ## Claim C7: rise and fall -/

/-- C7: on a non-empty array of rank >= 1, `rise` returns a permutation
of the row indices `0..row_count` along which the rows are non-decreasing
in the lexicographic row order (first differing element decides, via the
total element order), and `fall` one along which they are non-increasing;
`rise`/`fall` fail on a rank-0 array and return the empty permutation on
an empty array. -/
theorem rise_fall_law [LinearOrder α] (x y z : UArray α) (d : Nat) (rest : List Nat)
    (hx : x.shape = d :: rest) (hxw : x.wf) (hxe : x.flat_len ≠ 0)
    (hy : y.shape = []) (hz : z.shape ≠ []) (hze : z.flat_len = 0) :
    (∃ p : List Nat, x.rise = .ok p ∧ p.Perm (List.range x.row_count) ∧
      ((p.map x.row_slice).Pairwise fun r s => lexRowCmp r s ≠ .gt)) ∧
    (∃ q : List Nat, x.fall = .ok q ∧ q.Perm (List.range x.row_count) ∧
      ((q.map x.row_slice).Pairwise fun r s => lexRowCmp s r ≠ .gt)) ∧
    y.rise = .error ("Cannot rise a scalar") ∧
    y.fall = .error ("Cannot fall a scalar") ∧
    z.rise = .ok [] ∧ z.fall = .ok [] := by
  have hrank : ¬ x.rank = 0 := by simp [UArray.rank, hx]
  have hrc : x.row_count = d := by simp [UArray.row_count, hx]
  have hlen : ∀ i ∈ List.range x.row_count, (x.row_slice i).length = rest.prod := by
    intro i hi
    rw [hrc] at hi
    exact length_row_slice x d rest hx hxw i (List.mem_range.mp hi)
  have hriseEq : x.rise = .ok (sortByC (riseLe x) (List.range x.row_count)) := by
    unfold UArray.rise
    rw [if_neg hrank, if_neg hxe]
  have hfallEq : x.fall = .ok (sortByC (fallLe x) (List.range x.row_count)) := by
    unfold UArray.fall
    rw [if_neg hrank, if_neg hxe]
  have hyrank : (y.rank = 0) := by simp [UArray.rank, hy]
  have hzrank : ¬ z.rank = 0 := by
    simpa [UArray.rank, List.length_eq_zero] using hz
  refine ⟨⟨_, hriseEq, sortByC_perm _ _, ?_⟩, ⟨_, hfallEq, sortByC_perm _ _, ?_⟩,
    ?_, ?_, ?_, ?_⟩
  · have hsorted := pairwise_sortByC (riseLe x) (List.range x.row_count)
      (fun a _ b _ => riseLe_total x a b)
      (fun a b c ha hb hc hab hbc => by
        unfold riseLe at hab hbc ⊢
        rw [bne_gt_iff] at hab hbc ⊢
        exact lexRowCmp_trans _ _ _
          ((hlen a ha).trans (hlen b hb).symm)
          ((hlen b hb).trans (hlen c hc).symm) hab hbc)
    exact hsorted.map x.row_slice fun i j hij => by
      have := (bne_gt_iff _).mp hij
      exact this
  · have hsorted := pairwise_sortByC (fallLe x) (List.range x.row_count)
      (fun a _ b _ => fallLe_total x a b)
      (fun a b c ha hb hc hab hbc => by
        unfold fallLe at hab hbc ⊢
        rw [bne_gt_iff] at hab hbc ⊢
        exact lexRowCmp_trans _ _ _
          ((hlen c hc).trans (hlen b hb).symm)
          ((hlen b hb).trans (hlen a ha).symm) hbc hab)
    exact hsorted.map x.row_slice fun i j hij => by
      have := (bne_gt_iff _).mp hij
      exact this
  · unfold UArray.rise
    rw [if_pos hyrank]
  · unfold UArray.fall
    rw [if_pos hyrank]
  · unfold UArray.rise
    rw [if_neg hzrank, if_pos hze]
  · unfold UArray.fall
    rw [if_neg hzrank, if_pos hze]

/-- Witness for C7 at a 3x2 array plus a scalar and an empty array. -/
theorem rise_fall_law_witness :
    (⟨[3, 2], [5, 6, 1, 2, 5, 0]⟩ : UArray Nat).shape = 3 :: [2] ∧
    (⟨[3, 2], [5, 6, 1, 2, 5, 0]⟩ : UArray Nat).wf ∧
    (⟨[3, 2], [5, 6, 1, 2, 5, 0]⟩ : UArray Nat).flat_len ≠ 0 ∧
    (⟨[], [9]⟩ : UArray Nat).shape = [] ∧
    (⟨[2, 0], []⟩ : UArray Nat).shape ≠ [] ∧
    (⟨[2, 0], []⟩ : UArray Nat).flat_len = 0 ∧
    ((∃ p : List Nat, (⟨[3, 2], [5, 6, 1, 2, 5, 0]⟩ : UArray Nat).rise = .ok p ∧
      p.Perm (List.range (⟨[3, 2], [5, 6, 1, 2, 5, 0]⟩ : UArray Nat).row_count) ∧
      ((p.map (⟨[3, 2], [5, 6, 1, 2, 5, 0]⟩ : UArray Nat).row_slice).Pairwise
        fun r s => lexRowCmp r s ≠ .gt)) ∧
    (∃ q : List Nat, (⟨[3, 2], [5, 6, 1, 2, 5, 0]⟩ : UArray Nat).fall = .ok q ∧
      q.Perm (List.range (⟨[3, 2], [5, 6, 1, 2, 5, 0]⟩ : UArray Nat).row_count) ∧
      ((q.map (⟨[3, 2], [5, 6, 1, 2, 5, 0]⟩ : UArray Nat).row_slice).Pairwise
        fun r s => lexRowCmp s r ≠ .gt)) ∧
    (⟨[], [9]⟩ : UArray Nat).rise = .error ("Cannot rise a scalar") ∧
    (⟨[], [9]⟩ : UArray Nat).fall = .error ("Cannot fall a scalar") ∧
    (⟨[2, 0], []⟩ : UArray Nat).rise = .ok [] ∧
    (⟨[2, 0], []⟩ : UArray Nat).fall = .ok []) :=
  ⟨rfl, by decide, by decide, rfl, by decide, rfl,
    rise_fall_law (⟨[3, 2], [5, 6, 1, 2, 5, 0]⟩ : UArray Nat) (⟨[], [9]⟩ : UArray Nat)
      (⟨[2, 0], []⟩ : UArray Nat) 3 [2] rfl (by decide) (by decide) rfl (by decide) rfl⟩

/-! ## Lemmas: bit packing -/

theorem num_bits_aux_congr : ∀ (n fuel fuel' : Nat), n ≤ fuel → n ≤ fuel' →
    num_bits_aux fuel n = num_bits_aux fuel' n := by
  intro n
  induction n using Nat.strong_induction_on with
  | _ n ih =>
    intro fuel fuel' h h'
    cases n with
    | zero => cases fuel <;> cases fuel' <;> rfl
    | succ m =>
      cases fuel with
      | zero => omega
      | succ f =>
        cases fuel' with
        | zero => omega
        | succ f' =>
          show num_bits_aux f ((m + 1) / 2) + 1 = num_bits_aux f' ((m + 1) / 2) + 1
          have hlt : (m + 1) / 2 < m + 1 := Nat.div_lt_self (Nat.succ_pos m) one_lt_two
          rw [ih ((m + 1) / 2) hlt f f' (by omega) (by omega)]

theorem num_bits_zero : num_bits 0 = 0 := rfl

theorem num_bits_succ (n : Nat) : num_bits (n + 1) = num_bits ((n + 1) / 2) + 1 := by
  show num_bits_aux (n + 1) (n + 1) = num_bits_aux ((n + 1) / 2) ((n + 1) / 2) + 1
  have h1 : num_bits_aux (n + 1) (n + 1) = num_bits_aux n ((n + 1) / 2) + 1 := rfl
  rw [h1, num_bits_aux_congr ((n + 1) / 2) n ((n + 1) / 2) (by omega) (le_refl _)]

theorem lt_two_pow_num_bits (n : Nat) : n < 2 ^ num_bits n := by
  induction n using Nat.strong_induction_on with
  | _ n ih =>
    cases n with
    | zero => simp [num_bits_zero]
    | succ m =>
      rw [num_bits_succ]
      have hlt : (m + 1) / 2 < m + 1 := Nat.div_lt_self (Nat.succ_pos m) one_lt_two
      have h2 := ih ((m + 1) / 2) hlt
      rw [pow_succ]
      omega

theorem num_bits_le (n k : Nat) (hk : n < 2 ^ k) : num_bits n ≤ k := by
  induction n using Nat.strong_induction_on generalizing k with
  | _ n ih =>
    cases n with
    | zero => simp [num_bits_zero]
    | succ m =>
      cases k with
      | zero => simp at hk
      | succ k =>
        rw [num_bits_succ]
        have hlt : (m + 1) / 2 < m + 1 := Nat.div_lt_self (Nat.succ_pos m) one_lt_two
        have h2 : (m + 1) / 2 < 2 ^ k := by
          rw [pow_succ] at hk
          omega
        exact Nat.succ_le_succ (ih ((m + 1) / 2) hlt k h2)

theorem num_bits_pos (n : Nat) (h : 1 ≤ n) : 1 ≤ num_bits n := by
  cases n with
  | zero => omega
  | succ m => rw [num_bits_succ]; omega

theorem listMaxNat_cons (y : Nat) (l : List Nat) :
    listMaxNat (y :: l) = max y (listMaxNat l) := rfl

theorem le_listMaxNat (l : List Nat) : ∀ x ∈ l, x ≤ listMaxNat l := by
  induction l with
  | nil => intro x hx; cases hx
  | cons y l ih =>
    intro x hx
    rw [listMaxNat_cons]
    rcases List.mem_cons.mp hx with rfl | hx'
    · exact le_max_left _ _
    · exact le_trans (ih x hx') (le_max_right _ _)

theorem listMaxNat_le (l : List Nat) (B : Nat) (h : ∀ x ∈ l, x ≤ B) :
    listMaxNat l ≤ B := by
  induction l with
  | nil => exact Nat.zero_le B
  | cons y l ih =>
    rw [listMaxNat_cons]
    exact max_le (h y (List.mem_cons_self _ _))
      (ih fun x hx => h x (List.mem_cons_of_mem _ hx))

theorem chunks_exact_flatten_aux (n : Nat) (hn : n ≠ 0) :
    ∀ (L : List (List α)) (fuel : Nat), (∀ l ∈ L, l.length = n) →
      L.flatten.length ≤ fuel → chunks_exact_aux n fuel L.flatten = L := by
  intro L
  induction L with
  | nil =>
    intro fuel _ _
    cases fuel with
    | zero => rfl
    | succ f =>
      show (if n = 0 ∨ ([] : List α).length < n then [] else _) = ([] : List (List α))
      rw [if_pos]
      right
      simpa using Nat.pos_of_ne_zero hn
  | cons l L ih =>
    intro fuel hL hfuel
    have hl : l.length = n := hL l (List.mem_cons_self _ _)
    have hlen : ((l :: L).flatten).length = n + L.flatten.length := by
      simp [hl]
    cases fuel with
    | zero =>
      exfalso
      rw [hlen] at hfuel
      omega
    | succ f =>
      show (if n = 0 ∨ ((l :: L).flatten).length < n then [] else
        ((l :: L).flatten).take n :: chunks_exact_aux n f (((l :: L).flatten).drop n)) = l :: L
      rw [if_neg]
      · have htake : ((l :: L).flatten).take n = l := by
          rw [List.flatten_cons, ← hl, List.take_left]
        have hdrop : ((l :: L).flatten).drop n = L.flatten := by
          rw [List.flatten_cons, ← hl, List.drop_left]
        rw [htake, hdrop, ih f (fun r hr => hL r (List.mem_cons_of_mem _ hr))]
        rw [hlen] at hfuel
        omega
      · rw [hlen]
        push_neg
        exact ⟨hn, by omega⟩

theorem chunks_exact_flatten (n : Nat) (hn : n ≠ 0) (L : List (List α))
    (hL : ∀ l ∈ L, l.length = n) : chunks_exact n L.flatten = L :=
  chunks_exact_flatten_aux n hn L L.flatten.length hL (le_refl _)

theorem decode_bits_aux_or : ∀ (bs : List Bool) (acc i : Nat),
    decode_bits_aux bs acc i = acc ||| decode_bits_aux bs 0 i := by
  intro bs
  induction bs with
  | nil => intro acc i; simp [decode_bits_aux]
  | cons b bs ih =>
    intro acc i
    show decode_bits_aux bs (if b then acc ||| (1 <<< (i % 128)) else acc) (i + 1)
      = acc ||| decode_bits_aux bs (if b then 0 ||| (1 <<< (i % 128)) else 0) (i + 1)
    rw [ih (if b then acc ||| (1 <<< (i % 128)) else acc) (i + 1),
        ih (if b then 0 ||| (1 <<< (i % 128)) else 0) (i + 1)]
    cases b <;> simp [Nat.zero_or, Nat.or_assoc]

/-- The per-bit content of the merge step in the decoding loop. -/
theorem bit_merge (k i m : Nat) :
    (if m.testBit 0 then 2 ^ i else 0) ||| ((m / 2 % 2 ^ k) <<< (i + 1))
      = (m % 2 ^ (k + 1)) <<< i := by
  apply Nat.eq_of_testBit_eq
  intro j
  rcases Nat.lt_trichotomy j i with hj | hj | hj
  · have h1 : ¬ i ≤ j := by omega
    have h2 : ¬ i + 1 ≤ j := by omega
    have h3 : i ≠ j := by omega
    by_cases hb : m.testBit 0 <;>
      simp [Nat.testBit_or, Nat.testBit_shiftLeft, hb, Nat.testBit_two_pow, h1, h2, h3]
  · subst hj
    have h2 : ¬ j + 1 ≤ j := by omega
    by_cases hb : m.testBit 0
    · have hm : m % 2 = 1 := by
        have hb' := hb
        rw [Nat.testBit_zero] at hb'
        simpa using hb'
      simp [Nat.testBit_or, Nat.testBit_shiftLeft, hb, Nat.testBit_two_pow,
        Nat.testBit_mod_two_pow, h2, Nat.sub_self, Nat.testBit_zero, hm]
    · have hm : m % 2 = 0 := by
        have hb' := hb
        rw [Nat.testBit_zero] at hb'
        simp at hb'
        omega
      simp [Nat.testBit_or, Nat.testBit_shiftLeft, hb, Nat.testBit_two_pow,
        Nat.testBit_mod_two_pow, h2, Nat.sub_self, Nat.testBit_zero, hm]
  · have h1 : i ≤ j := by omega
    have h2 : i + 1 ≤ j := by omega
    have h3 : i ≠ j := by omega
    have h4 : j - (i + 1) = j - i - 1 := by omega
    have hsucc : j - i = (j - i - 1) + 1 := by omega
    by_cases hb : m.testBit 0 <;>
    · simp only [Nat.testBit_or, Nat.testBit_shiftLeft, Nat.testBit_mod_two_pow,
        Nat.testBit_two_pow, h4, hb]
      rw [hsucc, Nat.testBit_succ]
      by_cases hkk : j - i - 1 < k
      · have hkk2 : j - i - 1 + 1 < k + 1 := by omega
        simp [h1, h2, h3, hkk, hkk2]
      · have hkk2 : ¬ (j - i - 1 + 1 < k + 1) := by omega
        simp [h1, h2, h3, hkk, hkk2]

theorem decode_bits_range_testBit : ∀ (k m i : Nat), i + k ≤ 128 →
    decode_bits_aux ((List.range k).map fun j => m.testBit j) 0 i = (m % 2 ^ k) <<< i := by
  intro k
  induction k with
  | zero =>
    intro m i _
    simp [decode_bits_aux, Nat.mod_one, Nat.zero_shiftLeft]
  | succ k ih =>
    intro m i hik
    have hlist : (List.range (k + 1)).map (fun j => m.testBit j)
        = m.testBit 0 :: ((List.range k).map fun j => (m / 2).testBit j) := by
      rw [List.range_succ_eq_map, List.map_cons, List.map_map]
      congr 1
      apply List.map_congr_left
      intro j _
      exact Nat.testBit_succ m j
    rw [hlist]
    show decode_bits_aux ((List.range k).map fun j => (m / 2).testBit j)
      (if m.testBit 0 then 0 ||| (1 <<< (i % 128)) else 0) (i + 1) = (m % 2 ^ (k + 1)) <<< i
    have hi : i % 128 = i := Nat.mod_eq_of_lt (by omega)
    rw [hi, decode_bits_aux_or, ih (m / 2) (i + 1) (by omega)]
    have hif : (if m.testBit 0 then 0 ||| (1 <<< i) else 0)
        = (if m.testBit 0 then 2 ^ i else 0) := by
      cases hb : m.testBit 0 <;> simp [Nat.zero_or, Nat.one_shiftLeft]
    rw [hif, bit_merge]

theorem decode_bits_range (k m : Nat) (hk : k ≤ 128) (hm : m < 2 ^ k) :
    decode_bits ((List.range k).map fun j => m.testBit j) = m := by
  unfold decode_bits
  rw [decode_bits_range_testBit k m 0 (by omega), Nat.mod_eq_of_lt hm]
  rfl

set_option maxRecDepth 4000 in
/-- The saturating cast is exact on integral rationals in `[0, 2^128)`. -/
theorem f64_to_u128_exact (q : ℚ) (h1 : q.den = 1) (h2 : 0 ≤ q) (h3 : q < 2 ^ 128) :
    ((f64_to_u128 q : Nat) : ℚ) = q ∧ f64_to_u128 q ≤ 2 ^ 128 - 1 := by
  have hq : ((q.num : ℤ) : ℚ) = q := by
    conv_rhs => rw [← Rat.num_div_den q]
    rw [h1]
    simp
  have hfloor : ⌊q⌋ = q.num := by
    conv_lhs => rw [← hq]
    exact Int.floor_intCast q.num
  have hnn : (0 : ℤ) ≤ q.num := Rat.num_nonneg.mpr h2
  have hnum : q.num < ((2 ^ 128 : ℕ) : ℤ) := by
    have hc : ((q.num : ℤ) : ℚ) < (((2 ^ 128 : ℕ) : ℤ) : ℚ) := by
      rw [hq]
      push_cast
      exact h3
    exact_mod_cast hc
  have h4 : f64_to_u128 q = q.num.toNat := by
    unfold f64_to_u128
    rw [hfloor]
    omega
  constructor
  · rw [h4]
    have h5 : ((q.num.toNat : Nat) : ℚ) = (((q.num.toNat : Nat) : ℤ) : ℚ) := by
      push_cast
      rfl
    rw [h5, Int.toNat_of_nonneg hnn, hq]
  · rw [h4]
    omega

/-- Converting the emitted bit values back to booleans recovers `testBit`. -/
theorem enc_map_ne_zero (mb n : Nat) :
    (((List.range mb).map fun i => if n &&& (1 <<< i) != 0 then (1 : Nat) else 0).map
      fun b => b != 0) = (List.range mb).map fun i => n.testBit i := by
  rw [List.map_map]
  apply List.map_congr_left
  intro i _
  show (((if n &&& (1 <<< i) != 0 then (1 : Nat) else 0) : Nat) != 0) = n.testBit i
  rw [Nat.one_shiftLeft, Nat.and_two_pow]
  cases hb : n.testBit i <;> simp [hb, pow_ne_zero]

/-! ## Claim C3 (amended): the bit pack/unpack round trip -/

/-- C3 as amended: for an array of non-negative integral values below
`2^128` with at least one nonzero element, `inverse_bits (bits x) = x`
and neither call fails.  (The counterexample shows the original claim's
"for any shape ... neither call fails" is false for all-zero or empty
arrays.) -/
theorem bits_roundtrip (x : UArray ℚ)
    (hint : ∀ q ∈ x.data, q.den = 1 ∧ 0 ≤ q ∧ q < 2 ^ 128)
    (hpos : ∃ q ∈ x.data, 1 ≤ q) :
    ∃ y : UArray Nat, x.bits = .ok y ∧ y.inverse_bits = .ok x := by
  obtain ⟨q0, hq0mem, hq0⟩ := hpos
  have hd_ne : x.data ≠ [] := fun hc => by rw [hc] at hq0mem; cases hq0mem
  have hany : x.data.any (fun n => n.den != 1) = false := by
    rw [List.any_eq_false]
    intro q hq
    simp [(hint q hq).1]
  have hnats_ne : ¬ (x.data.map f64_to_u128 = []) := by
    simpa using hd_ne
  have hexact : ∀ q ∈ x.data, ((f64_to_u128 q : Nat) : ℚ) = q ∧ f64_to_u128 q ≤ 2 ^ 128 - 1 :=
    fun q hq => f64_to_u128_exact q (hint q hq).1 (hint q hq).2.1 (hint q hq).2.2
  have hMbound : listMaxNat (x.data.map f64_to_u128) ≤ 2 ^ 128 - 1 := by
    apply listMaxNat_le
    intro n hn
    rcases List.mem_map.mp hn with ⟨q, hq, rfl⟩
    exact (hexact q hq).2
  have hMlt : listMaxNat (x.data.map f64_to_u128) < 2 ^ 128 := by
    have hp : (0 : Nat) < 2 ^ 128 := pow_pos (by omega) 128
    omega
  have hM1 : 1 ≤ listMaxNat (x.data.map f64_to_u128) := by
    have hmem : f64_to_u128 q0 ∈ x.data.map f64_to_u128 := List.mem_map_of_mem _ hq0mem
    have h1 : (1 : ℚ) ≤ ((f64_to_u128 q0 : Nat) : ℚ) := by
      rw [(hexact q0 hq0mem).1]
      exact hq0
    have h2 : 1 ≤ f64_to_u128 q0 := by exact_mod_cast h1
    exact le_trans h2 (le_listMaxNat _ _ hmem)
  have hmb128 : num_bits (listMaxNat (x.data.map f64_to_u128)) ≤ 128 :=
    num_bits_le _ 128 hMlt
  have hmb1 : 1 ≤ num_bits (listMaxNat (x.data.map f64_to_u128)) :=
    num_bits_pos _ hM1
  have hbits : x.bits = .ok ⟨x.shape ++ [num_bits (listMaxNat (x.data.map f64_to_u128))],
      (x.data.map f64_to_u128).flatMap fun n =>
        (List.range (num_bits (listMaxNat (x.data.map f64_to_u128)))).map fun i =>
          if n &&& (1 <<< i) != 0 then 1 else 0⟩ := by
    unfold UArray.bits
    rw [hany]
    rw [if_neg (by simp)]
    rw [if_neg hnats_ne]
  refine ⟨_, hbits, ?_⟩
  -- now run inverse_bits on the packed array
  have hble : ∀ b ∈ (x.data.map f64_to_u128).flatMap fun n =>
      (List.range (num_bits (listMaxNat (x.data.map f64_to_u128)))).map fun i =>
        if n &&& (1 <<< i) != 0 then (1 : Nat) else 0, ¬ (1 < b) := by
    intro b hb
    rcases List.mem_flatMap.mp hb with ⟨n, _, hbn⟩
    rcases List.mem_map.mp hbn with ⟨i, _, rfl⟩
    by_cases hc : n &&& (1 <<< i) != 0 <;> simp [hc]
  have hany2 : ((x.data.map f64_to_u128).flatMap fun n =>
      (List.range (num_bits (listMaxNat (x.data.map f64_to_u128)))).map fun i =>
        if n &&& (1 <<< i) != 0 then (1 : Nat) else 0).any (fun b => 1 < b) = false := by
    rw [List.any_eq_false]
    intro b hb
    simpa using hble b hb
  have hshape_ne : ¬ (x.shape ++ [num_bits (listMaxNat (x.data.map f64_to_u128))] = []) := by
    simp
  have hlast : (x.shape ++ [num_bits (listMaxNat (x.data.map f64_to_u128))]).getLastD 0
      = num_bits (listMaxNat (x.data.map f64_to_u128)) := by
    rw [List.getLastD_eq_getLast?, List.getLast?_concat]
    rfl
  have hmb_ne : ¬ (num_bits (listMaxNat (x.data.map f64_to_u128)) = 0) := by omega
  unfold UArray.inverse_bits
  rw [hany2]
  rw [if_neg (by simp)]
  rw [if_neg hshape_ne]
  rw [hlast]
  rw [if_neg hmb_ne]
  rw [List.dropLast_concat]
  -- it remains to show the decoded data equals the original data
  have hlens : ∀ bs ∈ (x.data.map f64_to_u128).map fun n =>
      (List.range (num_bits (listMaxNat (x.data.map f64_to_u128)))).map fun i => n.testBit i,
      bs.length = num_bits (listMaxNat (x.data.map f64_to_u128)) := by
    intro bs hbs
    rcases List.mem_map.mp hbs with ⟨n, _, rfl⟩
    simp
  have hbools : (((x.data.map f64_to_u128).flatMap fun n =>
      (List.range (num_bits (listMaxNat (x.data.map f64_to_u128)))).map fun i =>
        if n &&& (1 <<< i) != 0 then (1 : Nat) else 0).map fun b => b != 0)
      = ((x.data.map f64_to_u128).map fun n =>
        (List.range (num_bits (listMaxNat (x.data.map f64_to_u128)))).map
          fun i => n.testBit i).flatten := by
    rw [List.map_flatMap, List.flatMap_def]
    congr 1
    apply List.map_congr_left
    intro n _
    exact enc_map_ne_zero _ n
  have hdata : ((chunks_exact (num_bits (listMaxNat (x.data.map f64_to_u128)))
      (((x.data.map f64_to_u128).flatMap fun n =>
        (List.range (num_bits (listMaxNat (x.data.map f64_to_u128)))).map fun i =>
          if n &&& (1 <<< i) != 0 then (1 : Nat) else 0).map fun b => b != 0)).map
        fun bs => ((decode_bits bs : Nat) : ℚ)) = x.data := by
    rw [hbools, chunks_exact_flatten _ hmb_ne _ hlens, List.map_map, List.map_map]
    have hstep : ∀ q ∈ x.data,
        (((fun bs => ((decode_bits bs : Nat) : ℚ)) ∘
          (fun n => (List.range (num_bits (listMaxNat (x.data.map f64_to_u128)))).map
            fun i => n.testBit i) ∘ f64_to_u128) q) = q := by
      intro q hq
      have hnM : f64_to_u128 q ≤ listMaxNat (x.data.map f64_to_u128) :=
        le_listMaxNat _ _ (List.mem_map_of_mem _ hq)
      have hnlt : f64_to_u128 q < 2 ^ num_bits (listMaxNat (x.data.map f64_to_u128)) :=
        lt_of_le_of_lt hnM (lt_two_pow_num_bits _)
      show ((decode_bits ((List.range _).map fun i => (f64_to_u128 q).testBit i) : Nat) : ℚ) = q
      rw [decode_bits_range _ _ hmb128 hnlt]
      exact (hexact q hq).1
    calc x.data.map ((fun bs => ((decode_bits bs : Nat) : ℚ)) ∘
          (fun n => (List.range (num_bits (listMaxNat (x.data.map f64_to_u128)))).map
            fun i => n.testBit i) ∘ f64_to_u128)
        = x.data.map id := List.map_congr_left fun q hq => hstep q hq
      _ = x.data := List.map_id x.data
  rw [hdata]

/-- Counterexample to C3 as stated: `[0.0]` is an array of non-negative
integral values (shape `[1]`), yet the round trip panics: `bits` emits a
0-sized bit axis (shape `[1,0]`) and `inverse_bits` then divides the data
length by the 0-length bit string. -/
theorem bits_roundtrip_counterexample :
    UArray.bits ⟨[1], [(0 : ℚ)]⟩ = .ok ⟨[1, 0], []⟩ ∧
    UArray.inverse_bits ⟨[1, 0], ([] : List Nat)⟩ =
      .error ("panic: attempt to divide by zero") := by
  decide

set_option maxRecDepth 100000 in
/-- Witness for the amended C3 at `[5.0]`: `bits` gives shape `[1,3]`,
data `[1,0,1]`, and `inverse_bits` restores `[5.0]`. -/
theorem bits_roundtrip_witness :
    (∀ q ∈ (⟨[1], [(5 : ℚ)]⟩ : UArray ℚ).data, q.den = 1 ∧ 0 ≤ q ∧ q < 2 ^ 128) ∧
    (∃ q ∈ (⟨[1], [(5 : ℚ)]⟩ : UArray ℚ).data, 1 ≤ q) ∧
    (∃ y : UArray Nat, (⟨[1], [(5 : ℚ)]⟩ : UArray ℚ).bits = .ok y ∧
      y.inverse_bits = .ok ⟨[1], [(5 : ℚ)]⟩) :=
  ⟨by decide, by decide, bits_roundtrip _ (by decide) (by decide)⟩
